import Mathlib

/-!
# VLC-Transceiver: ByteQueue, test harness, data pipeline and block codec

A shallow embedding of `include/ByteQueue.hpp` and `tests/Test.cpp`.

* A `uint32_t` is a natural number, with the reduction modulo `2^32` written
  out wherever one is stored or computed.  An `int` is an integer kept in the
  32-bit range, signed overflow wrapping around in two's complement.
* Byte buffers are lists of naturals below 256; a pointer into a buffer is the
  list of bytes from that position on.
* Operations whose bodies live in translation units other than these two
  (`ByteQueue::push`, `ByteQueue::pop`, the constructor, `getBit`,
  `ForwardErrorCorrection::Encode` / `Decode`) are modelled from the written
  specification; each such definition says so in its doc comment.
-/

namespace VLC

/-! ## ByteQueue (include/ByteQueue.hpp) -/

/-- Number of values of a `uint32_t`. -/
def UINT32 : Nat := 4294967296

/-- State reachable through a `ByteQueue` object: the memory the three public
    pointers refer to (the 4-byte length field, the 4-byte hardware cursor
    field, the data region), the value of the pointer `_data` itself
    (`dataAddr`), and the private members.  The three memory areas are
    disjoint, as laid out in the shared region. -/
structure ByteQueue where
  /-- Contents of the `uint32_t` that `_length` points to. -/
  length : Nat
  /-- Contents of the `uint32_t` that `_pru_cursor` points to. -/
  pru_cursor : Nat
  /-- Contents of the data region that `_data` points to. -/
  data : List Nat
  /-- Value of the pointer `_data`. -/
  dataAddr : Nat
  /-- Private member `_max_bytes`. -/
  max_bytes : Nat
  /-- Private member `_internal_cursor`. -/
  internal_cursor : Nat
  /-- Private member `_mem_fd`. -/
  mem_fd : Nat
  deriving DecidableEq, Repr

namespace ByteQueue

/-- Method `void setLength(int n) { *((uint32_t*)_length) = n; }`: the `int`
    is converted to `uint32_t`, that is, reduced modulo `2^32`. -/
def setLength (q : ByteQueue) (n : Int) : ByteQueue :=
  { q with length := (n % (UINT32 : Int)).toNat }

/-- Method `uint32_t getLength() { return *((uint32_t*)_length); }`,
    returning the value read and the state left behind. -/
def getLength (q : ByteQueue) : Nat × ByteQueue :=
  (q.length, q)

/-- Method `uint32_t pruCursor()`: `0` when the hardware cursor field holds 5,
    otherwise the field minus 5 in `uint32_t` arithmetic. -/
def pruCursor (q : ByteQueue) : Nat × ByteQueue :=
  if q.pru_cursor = 5 then
    (0, q)
  else
    ((q.pru_cursor + UINT32 - 5) % UINT32, q)

/-- Method `void* dataLocation() { return _data; }`. -/
def dataLocation (q : ByteQueue) : Nat × ByteQueue :=
  (q.dataAddr, q)

/-- Method `uint8_t* peek() { return (uint8_t*)_data + _internal_cursor; }`. -/
def peek (q : ByteQueue) : Nat × ByteQueue :=
  (q.dataAddr + q.internal_cursor, q)

end ByteQueue

/-- Modelled from the spec: the two quantities of `ByteQueue.cpp` (absent) that
    the specification leaves open, namely the fixed frame size copied by
    `push` and `pop` ("e.g. 87 or 88 bytes") and how `push` "updates `length`". -/
structure QueueConfig where
  /-- The fixed frame size. -/
  frameSize : Nat
  /-- The length field after a push, as a function of the field before it. -/
  pushLength : Nat → Nat

namespace ByteQueue

/-- Modelled from the spec: the constructor `ByteQueue(uint32_t max_bytes)` of
    `ByteQueue.cpp` (absent).  The region of `8 + capacity` bytes is mapped
    once; `mem` gives its initial contents (`mem 0` the length field, `mem 1`
    the hardware cursor field, `mem (2 + i)` data byte `i`), and the internal
    cursor starts at 0. -/
def create (max_bytes : Nat) (mem : Nat → Nat) (dataAddr mem_fd : Nat) : ByteQueue :=
  { length := mem 0
    pru_cursor := mem 1
    data := (List.range max_bytes).map fun i => mem (2 + i)
    dataAddr := dataAddr
    max_bytes := max_bytes
    internal_cursor := 0
    mem_fd := mem_fd }

/-- Modelled from the spec: `ByteQueue::push` of `ByteQueue.cpp` (absent).
    "Copies one fixed-size frame into the data region starting at
    `internalCursor`, then advances `internalCursor` by that size modulo
    `capacity`, and updates `length`."  A copy that would leave the data
    region or the source buffer, and a capacity of zero, are contract
    violations (`none`). -/
def push (cfg : QueueConfig) (q : ByteQueue) (bytes : List Nat) : Option ByteQueue :=
  if 0 < q.max_bytes ∧ cfg.frameSize ≤ bytes.length ∧
      q.internal_cursor + cfg.frameSize ≤ q.data.length then
    some { q with
      data := q.data.take q.internal_cursor ++ bytes.take cfg.frameSize ++
        q.data.drop (q.internal_cursor + cfg.frameSize)
      internal_cursor := (q.internal_cursor + cfg.frameSize) % q.max_bytes
      length := cfg.pushLength q.length }
  else none

/-- Modelled from the spec: `ByteQueue::pop` of `ByteQueue.cpp` (absent).
    "Copies one fixed-size frame from the data region starting at
    `internalCursor` into the caller-supplied buffer, then advances
    `internalCursor` the same way."  Returns the caller's buffer after the
    copy and the new state. -/
def pop (cfg : QueueConfig) (q : ByteQueue) (packet : List Nat) :
    Option (List Nat × ByteQueue) :=
  if 0 < q.max_bytes ∧ cfg.frameSize ≤ packet.length ∧
      q.internal_cursor + cfg.frameSize ≤ q.data.length then
    some ((q.data.drop q.internal_cursor).take cfg.frameSize ++ packet.drop cfg.frameSize,
      { q with internal_cursor := (q.internal_cursor + cfg.frameSize) % q.max_bytes })
  else none

/-- Calls `pop` `n` times in a row on the same caller buffer. -/
def popN (cfg : QueueConfig) : Nat → ByteQueue → List Nat → Option (List Nat × ByteQueue)
  | 0, q, packet => some (packet, q)
  | n + 1, q, packet =>
    match pop cfg q packet with
    | none => none
    | some (packet', q') => popN cfg n q' packet'

/-- Pushes the given frames one after the other. -/
def pushAll (cfg : QueueConfig) : ByteQueue → List (List Nat) → Option ByteQueue
  | q, [] => some q
  | q, f :: fs =>
    match push cfg q f with
    | none => none
    | some q' => pushAll cfg q' fs

end ByteQueue

/-! ## Test harness (tests/Test.cpp) -/

/-- Modelled from the spec: `getBit` of `Util.hpp` (absent), the bit-level read
    on byte arrays: `getBit(p, i)` reads bit `i % 8` of byte `i / 8` of the
    array at `p`, so for `0 ≤ i < 8` the `i`-th bit of the byte `p` points to. -/
def getBit (p : List Nat) (i : Nat) : Nat :=
  p.getD (i / 8) 0 / 2 ^ (i % 8) % 2

/-- Inner loop of `HammingDistance`:
    `for (int i = 0; i < 8; ++i) num_mismatches += (getBit(a, i) == getBit(b, i));`
    on an `unsigned int` accumulator. -/
def addBitComparisons (a b : List Nat) (num_mismatches : Nat) : Nat :=
  (List.range 8).foldl
    (fun acc i => (acc + (if getBit a i = getBit b i then 1 else 0)) % UINT32)
    num_mismatches

/-- The `while (n)` loop of `HammingDistance`; reading past the end of either
    buffer is `none`. -/
def HammingDistanceLoop : Nat → List Nat → List Nat → Nat → Option Nat
  | 0, _, _, num_mismatches => some num_mismatches
  | n + 1, x :: a, y :: b, num_mismatches =>
    HammingDistanceLoop n a b
      (if x ≠ y then addBitComparisons (x :: a) (y :: b) num_mismatches
       else num_mismatches)
  | _ + 1, _, _, _ => none

/-- Function `unsigned int HammingDistance(unsigned char* a, unsigned char* b,
    unsigned int n)` of `Test.cpp`. -/
def HammingDistance (a b : List Nat) (n : Nat) : Option Nat :=
  HammingDistanceLoop n a b 0

/-- Result of an `int` addition or subtraction whose exact value is `x`: the
    32-bit two's complement value congruent to `x` modulo `2^32`.  Signed
    overflow has no defined meaning in C++; this is the wraparound the
    compiled test performs. -/
def wrapInt (x : Int) : Int := (x + 2147483648) % 4294967296 - 2147483648

/-- Local variables of the chunking loop of `TestDataPipeline`, together with
    the record of the calls made so far: each iteration calls
    `packetize(data + i, packet, bitlen)`, `fec.Encode(packet, encoded, 45)`
    and `queue.push(encoded)` once, recorded as the pair `(i, bitlen)`. -/
structure PipelineState where
  /-- Loop counter `i`. -/
  i : Int
  /-- Variable `full_packets`. -/
  full_packets : Int
  /-- Variable `num`. -/
  num : Int
  /-- The `(i, bitlen)` of every iteration run so far, oldest first. -/
  calls : List (Int × Int)
  deriving DecidableEq, Repr

/-- The loop `for (int i = 0; i < data_length; i += 43) { ... }` of
    `TestDataPipeline`, run for at most `fuel` iterations (`none` when the
    loop is still running after `fuel` iterations).  The three `int`
    variables are updated in 32-bit arithmetic. -/
def pipelineLoop (data_length last_packet_len : Int) :
    Nat → PipelineState → Option PipelineState
  | 0, s => if s.i < data_length then none else some s
  | fuel + 1, s =>
    if s.i < data_length then
      let bitlen : Int := if s.full_packets > 0 then 43 * 8 else last_packet_len
      pipelineLoop data_length last_packet_len fuel
        { i := wrapInt (s.i + 43)
          full_packets := wrapInt (s.full_packets - 1)
          num := wrapInt (s.num + 1)
          calls := s.calls ++ [(s.i, bitlen)] }
    else some s

/-- Function `TestDataPipeline` of `Test.cpp`, with its constant
    `data_length` as a parameter:
    `full_packets = data_length / 43`, `last_packet_len = data_length % 43`,
    `num = 0`, then the chunking loop. -/
def TestDataPipeline (data_length : Int) (fuel : Nat) : Option PipelineState :=
  pipelineLoop data_length (Int.tmod data_length 43) fuel
    { i := 0, full_packets := Int.tdiv data_length 43, num := 0, calls := [] }

/-- Capacity passed to the queue of `TestDataPipeline`: `ByteQueue queue(88 * 23)`. -/
def pipelineQueueBytes : Nat := 88 * 23

/-- Frames used to exercise the pipeline queue: the `k`-th of 24 frames is
    filled with the byte `k`. -/
def pipelineFrames (frameSize : Nat) : List (List Nat) :=
  (List.range 24).map fun k => List.replicate frameSize (k + 1)

/-- A call `fec.Encode(input, output, inputLength)` made by a test: the
    `inputLength` argument and the size of the buffer passed as `output`. -/
structure EncodeCall where
  /-- Argument `inputLength`. -/
  inputLength : Nat
  /-- Number of bytes allocated for the buffer passed as `output`. -/
  outputBytes : Nat
  deriving DecidableEq, Repr

/-- Contract of `Encode`: `inputLength` divisible by 3, and room for the
    `2 × inputLength` bytes written. -/
def EncodeCall.meetsContract (c : EncodeCall) : Prop :=
  c.inputLength % 3 = 0 ∧ 2 * c.inputLength ≤ c.outputBytes

instance (c : EncodeCall) : Decidable c.meetsContract := by
  unfold EncodeCall.meetsContract; infer_instance

/-- The call in `TestFEC`: `fec.Encode(data, encoded, data_length)` with
    `data_length = 96` and `encoded = new unsigned char[data_length * 2]`. -/
def TestFEC_Encode : EncodeCall := { inputLength := 96, outputBytes := 96 * 2 }

/-- The call in `TestDataPipeline`: `fec.Encode(packet, encoded, 45)` with
    `encoded = new uint8_t[87]`. -/
def TestDataPipeline_Encode : EncodeCall := { inputLength := 45, outputBytes := 87 }

/-! ## Block codec (ForwardErrorCorrection, Golay) -/

/-- Modelled from the spec: the fixed code table of `Golay.hpp` (absent), the
    "fixed generator relationship" from 12-bit symbols to 24-bit codewords
    that corrects 3 errors per codeword.  These are the twelve rows of the
    systematic generator matrix of the extended binary Golay code (generator
    polynomial `0xC75`, overall parity bit last); row `i` is the codeword of
    the symbol `2^i`. -/
def golayRows : List Nat :=
  [6379, 10558, 19095, 36294, 66407, 132813, 265625, 525274,
   1050548, 2101096, 4195899, 8391797]

/-- Sum over GF(2) of the rows selected by the bits of `m`, lowest bit first. -/
def encodeRows : List Nat → Nat → Nat
  | [], _ => 0
  | r :: rs, m => (if m % 2 = 1 then r else 0) ^^^ encodeRows rs (m / 2)

/-- Modelled from the spec: the codeword of a 12-bit symbol. -/
def golayEncode (m : Nat) : Nat := encodeRows golayRows m

/-- Number of set bits among the lowest `k` bits of `w`. -/
def weight : Nat → Nat → Nat
  | 0, _ => 0
  | k + 1, w => w % 2 + weight k (w / 2)

/-- Hamming distance between two 24-bit words: the number of bit positions in
    which they differ. -/
def distance (a b : Nat) : Nat := weight 24 (a ^^^ b)

/-- Among the symbols `0 .. k`, the first one whose codeword is nearest to
    `w`. -/
def nearestSymbol (w : Nat) : Nat → Nat
  | 0 => 0
  | k + 1 =>
    let best := nearestSymbol w k
    if distance (golayEncode (k + 1)) w < distance (golayEncode best) w then k + 1 else best

/-- Modelled from the spec: decoding of one received 24-bit word, which "finds
    the valid codeword at minimum Hamming distance and recovers its original
    12-bit symbol". -/
def golayDecode (w : Nat) : Nat := nearestSymbol w 4095

/-- The 24-bit word held by three bytes, most significant byte first. -/
def word24 (x0 x1 x2 : Nat) : Nat := x0 * 65536 + x1 * 256 + x2

/-- Modelled from the spec: `ForwardErrorCorrection::Encode` (absent).  Each 3
    input bytes are two 12-bit symbols, most significant bit first; each
    symbol is mapped to its 24-bit codeword, and the codewords are emitted
    back to back, most significant bit first, byte-packed: `2 × inputLength`
    bytes.  An input length that is not a multiple of 3 is a contract
    violation (`none`). -/
def Encode : List Nat → Option (List Nat)
  | [] => some []
  | b0 :: b1 :: b2 :: rest =>
    let c0 := golayEncode (b0 * 16 + b1 / 16)
    let c1 := golayEncode (b1 % 16 * 256 + b2)
    (Encode rest).map fun out =>
      c0 / 65536 :: c0 / 256 % 256 :: c0 % 256 ::
      c1 / 65536 :: c1 / 256 % 256 :: c1 % 256 :: out
  | _ => none

/-- Modelled from the spec: `ForwardErrorCorrection::Decode` (absent).  Each 6
    input bytes are two 24-bit words; each is decoded to the symbol of the
    nearest codeword, and two symbols are packed into 3 output bytes:
    `inputLength / 2` bytes.  An input length that is not a multiple of 6 is a
    contract violation (`none`). -/
def Decode : List Nat → Option (List Nat)
  | [] => some []
  | x0 :: x1 :: x2 :: x3 :: x4 :: x5 :: rest =>
    let s0 := golayDecode (word24 x0 x1 x2)
    let s1 := golayDecode (word24 x3 x4 x5)
    (Decode rest).map fun out =>
      s0 / 16 :: (s0 % 16 * 16 + s1 / 256) :: s1 % 256 :: out
  | _ => none

/-- The buffer `R` is a corruption of the buffer `E` with at most `k` flipped
    bits inside each 24-bit codeword: both hold the same number of whole
    codewords, `R` is a buffer of bytes, and the words at the same position
    differ in at most `k` bit positions. -/
def flipsWithin (k : Nat) : List Nat → List Nat → Bool
  | [], [] => true
  | e0 :: e1 :: e2 :: E, r0 :: r1 :: r2 :: R =>
    decide (r0 < 256) && decide (r1 < 256) && decide (r2 < 256) &&
      decide (distance (word24 e0 e1 e2) (word24 r0 r1 r2) ≤ k) && flipsWithin k E R
  | _, _ => false

/-- Checks that every symbol `0 < m < n` has a codeword of weight at least 8. -/
def heavyBelow : Nat → Bool
  | 0 => true
  | k + 1 => (k = 0 || decide (8 ≤ weight 24 (golayEncode k))) && heavyBelow k

/-! ## Lemmas: the block code -/

theorem weight_zero (k : Nat) : weight k 0 = 0 := by
  induction k with
  | zero => rfl
  | succ k ih => simp [weight, ih]

theorem distance_self (a : Nat) : distance a a = 0 := by
  unfold distance
  rw [Nat.xor_self, weight_zero]

theorem weight_xor_triangle (k : Nat) : ∀ a b c : Nat,
    weight k (a ^^^ c) ≤ weight k (a ^^^ b) + weight k (b ^^^ c) := by
  induction k with
  | zero => intro a b c; simp [weight]
  | succ k ih =>
    intro a b c
    simp only [weight, Nat.xor_div_two, Nat.xor_mod_two_eq]
    have := ih (a / 2) (b / 2) (c / 2)
    omega

theorem distance_triangle (a b c : Nat) :
    distance a c ≤ distance a b + distance b c :=
  weight_xor_triangle 24 a b c

theorem distance_comm (a b : Nat) : distance a b = distance b a := by
  unfold distance; rw [Nat.xor_comm]

theorem encodeRows_xor (rows : List Nat) : ∀ a b : Nat,
    encodeRows rows (a ^^^ b) = encodeRows rows a ^^^ encodeRows rows b := by
  induction rows with
  | nil => intro a b; simp [encodeRows]
  | cons r rs ih =>
    intro a b
    simp only [encodeRows, Nat.xor_div_two, ih, Nat.xor_mod_two_eq]
    rcases Nat.mod_two_eq_zero_or_one a with ha | ha <;>
    rcases Nat.mod_two_eq_zero_or_one b with hb | hb <;>
    have hab : (a + b) % 2 = (a % 2 + b % 2) % 2 := by omega
    all_goals (rw [hab, ha, hb]; simp)
    · ac_rfl
    · ac_rfl
    · rw [Nat.xor_comm r (encodeRows rs (a / 2)), Nat.xor_assoc, Nat.xor_cancel_left]

theorem encodeRows_lt (rows : List Nat) (h : ∀ r ∈ rows, r < 2 ^ 24) :
    ∀ m : Nat, encodeRows rows m < 2 ^ 24 := by
  induction rows with
  | nil => intro m; simp [encodeRows]
  | cons r rs ih =>
    intro m
    simp only [encodeRows]
    apply Nat.xor_lt_two_pow
    · split
      · exact h r (List.mem_cons_self _ _)
      · exact Nat.two_pow_pos 24
    · exact ih (fun x hx => h x (List.mem_cons_of_mem _ hx)) _

theorem golayEncode_lt (m : Nat) : golayEncode m < 2 ^ 24 :=
  encodeRows_lt golayRows (by decide) m

theorem golayEncode_xor (a b : Nat) :
    golayEncode (a ^^^ b) = golayEncode a ^^^ golayEncode b :=
  encodeRows_xor golayRows a b

set_option maxRecDepth 100000 in
theorem heavyBelow_all : heavyBelow 4096 = true := by decide!

theorem heavyBelow_spec : ∀ n : Nat, heavyBelow n = true →
    ∀ k, k < n → k ≠ 0 → 8 ≤ weight 24 (golayEncode k) := by
  intro n
  induction n with
  | zero => intro _ k hk; omega
  | succ n ih =>
    intro h k hk hk0
    simp only [heavyBelow, Bool.and_eq_true, Bool.or_eq_true, decide_eq_true_eq] at h
    rcases Nat.lt_succ_iff_lt_or_eq.mp hk with hlt | heq
    · exact ih h.2 k hlt hk0
    · subst heq
      rcases h.1 with h0 | h8
      · exact absurd h0 hk0
      · exact h8

/-- Two different 12-bit symbols have codewords that differ in at least 8 bit
    positions. -/
theorem golay_min_distance (a b : Nat) (ha : a < 4096) (hb : b < 4096) (hab : a ≠ b) :
    8 ≤ distance (golayEncode a) (golayEncode b) := by
  unfold distance
  rw [← golayEncode_xor]
  apply heavyBelow_spec 4096 heavyBelow_all
  · exact Nat.xor_lt_two_pow (n := 12) ha hb
  · intro h
    exact hab (Nat.xor_eq_zero.mp h)

theorem nearestSymbol_le (w : Nat) : ∀ k : Nat, nearestSymbol w k ≤ k := by
  intro k
  induction k with
  | zero => simp [nearestSymbol]
  | succ k ih =>
    simp only [nearestSymbol]
    split <;> omega

theorem nearestSymbol_correct (w m : Nat) (hm : m < 4096)
    (hw : distance (golayEncode m) w ≤ 3) :
    ∀ k : Nat, k < 4096 → m ≤ k → nearestSymbol w k = m := by
  have far : ∀ j : Nat, j < 4096 → j ≠ m → 5 ≤ distance (golayEncode j) w := by
    intro j hj hjm
    have h8 := golay_min_distance j m hj hm hjm
    have ht := distance_triangle (golayEncode j) w (golayEncode m)
    rw [distance_comm w (golayEncode m)] at ht
    omega
  intro k
  induction k with
  | zero =>
    intro _ h0
    have : m = 0 := by omega
    simp [nearestSymbol, this]
  | succ k ih =>
    intro hk hmk
    simp only [nearestSymbol]
    rcases Nat.lt_or_ge k m with hlt | hge
    · have hmeq : m = k + 1 := by omega
      have hb := nearestSymbol_le w k
      have hfar := far (nearestSymbol w k) (by omega) (by omega)
      rw [if_pos (by rw [← hmeq]; omega)]
      exact hmeq.symm
    · have hbest := ih (by omega) hge
      rw [hbest]
      have hfar := far (k + 1) hk (by omega)
      rw [if_neg (by omega)]

/-- A received word within 3 bit flips of the codeword of `m` decodes to `m`. -/
theorem golayDecode_corrects (w m : Nat) (hm : m < 4096)
    (hw : distance (golayEncode m) w ≤ 3) : golayDecode w = m :=
  nearestSymbol_correct w m hm hw 4095 (by decide) (by omega)

theorem word24_bytes (c : Nat) :
    word24 (c / 65536) (c / 256 % 256) (c % 256) = c := by
  unfold word24; omega

theorem Encode_cons (b0 b1 b2 : Nat) (rest : List Nat) :
    Encode (b0 :: b1 :: b2 :: rest) =
      (Encode rest).map fun out =>
        golayEncode (b0 * 16 + b1 / 16) / 65536 ::
        golayEncode (b0 * 16 + b1 / 16) / 256 % 256 ::
        golayEncode (b0 * 16 + b1 / 16) % 256 ::
        golayEncode (b1 % 16 * 256 + b2) / 65536 ::
        golayEncode (b1 % 16 * 256 + b2) / 256 % 256 ::
        golayEncode (b1 % 16 * 256 + b2) % 256 :: out := by
  simp only [Encode]

theorem Decode_cons (x0 x1 x2 x3 x4 x5 : Nat) (rest : List Nat) :
    Decode (x0 :: x1 :: x2 :: x3 :: x4 :: x5 :: rest) =
      (Decode rest).map fun out =>
        golayDecode (word24 x0 x1 x2) / 16 ::
        (golayDecode (word24 x0 x1 x2) % 16 * 16 + golayDecode (word24 x3 x4 x5) / 256) ::
        golayDecode (word24 x3 x4 x5) % 256 :: out := by
  simp only [Decode]

theorem flipsWithin_cons (k e0 e1 e2 : Nat) (E R : List Nat)
    (h : flipsWithin k (e0 :: e1 :: e2 :: E) R = true) :
    ∃ r0 r1 r2 R', R = r0 :: r1 :: r2 :: R' ∧
      distance (word24 e0 e1 e2) (word24 r0 r1 r2) ≤ k ∧ flipsWithin k E R' = true := by
  match R, h with
  | [], h => simp [flipsWithin] at h
  | [_], h => simp [flipsWithin] at h
  | [_, _], h => simp [flipsWithin] at h
  | r0 :: r1 :: r2 :: R', h =>
    simp only [flipsWithin, Bool.and_eq_true, decide_eq_true_eq] at h
    exact ⟨r0, r1, r2, R', rfl, h.1.2, h.2⟩

/-- Decoding undoes encoding followed by any corruption of at most 3 bit flips
    per codeword. -/
theorem Decode_Encode_corrupted : ∀ D : List Nat, D.length % 3 = 0 →
    (∀ b ∈ D, b < 256) →
    ∃ E, Encode D = some E ∧ E.length = 2 * D.length ∧ Decode E = some D ∧
      ∀ R, flipsWithin 3 E R = true → Decode R = some D
  | [], _, _ => by
    refine ⟨[], by simp only [Encode], rfl, by simp only [Decode], ?_⟩
    intro R hR
    cases R with
    | nil => simp only [Decode]
    | cons r R => simp [flipsWithin] at hR
  | [_], h, _ => by simp at h
  | [_, _], h, _ => by simp at h
  | b0 :: b1 :: b2 :: rest, h, hb => by
    have hrest : rest.length % 3 = 0 := by
      simp only [List.length_cons] at h; omega
    have hb0 : b0 < 256 := hb b0 (by simp)
    have hb1 : b1 < 256 := hb b1 (by simp)
    have hb2 : b2 < 256 := hb b2 (by simp)
    obtain ⟨E', hE', hlen', hclean', hdec'⟩ :=
      Decode_Encode_corrupted rest hrest (fun b hbm => hb b (by simp [hbm]))
    have hs0 : ∀ w, distance (golayEncode (b0 * 16 + b1 / 16)) w ≤ 3 →
        golayDecode w = b0 * 16 + b1 / 16 :=
      fun w hw => golayDecode_corrects w _ (by omega) hw
    have hs1 : ∀ w, distance (golayEncode (b1 % 16 * 256 + b2)) w ≤ 3 →
        golayDecode w = b1 % 16 * 256 + b2 :=
      fun w hw => golayDecode_corrects w _ (by omega) hw
    rw [Encode_cons, hE']
    refine ⟨_, rfl, by simp only [List.length_cons, hlen']; omega, ?_, ?_⟩
    · rw [Decode_cons, hclean', word24_bytes, word24_bytes,
        hs0 _ (by rw [distance_self]; omega), hs1 _ (by rw [distance_self]; omega)]
      simp only [Option.map_some', Option.some.injEq, List.cons.injEq, and_true]
      omega
    · intro R hR
      obtain ⟨r0, r1, r2, R1, rfl, hd0, hR1⟩ := flipsWithin_cons _ _ _ _ _ _ hR
      obtain ⟨r3, r4, r5, R2, rfl, hd1, hR2⟩ := flipsWithin_cons _ _ _ _ _ _ hR1
      rw [word24_bytes] at hd0 hd1
      rw [Decode_cons, hdec' R2 hR2, hs0 _ hd0, hs1 _ hd1]
      simp only [Option.map_some', Option.some.injEq, List.cons.injEq, and_true]
      omega

/-! ## Lemmas: the queue -/

theorem pop_frame (cfg : QueueConfig) (c : Nat) (hfs : 0 < cfg.frameSize)
    (q : ByteQueue) (packet : List Nat) (j : Nat)
    (hmax : q.max_bytes = c * cfg.frameSize) (hlen : q.data.length = c * cfg.frameSize)
    (hcur : q.internal_cursor = j * cfg.frameSize) (hj : j < c)
    (hp : cfg.frameSize ≤ packet.length) :
    ByteQueue.pop cfg q packet =
      some ((q.data.drop (j * cfg.frameSize)).take cfg.frameSize ++ packet.drop cfg.frameSize,
        { q with internal_cursor := (j + 1) % c * cfg.frameSize }) := by
  have hin : q.internal_cursor + cfg.frameSize ≤ q.data.length := by
    have : (j + 1) * cfg.frameSize ≤ c * cfg.frameSize := Nat.mul_le_mul_right _ hj
    rw [Nat.add_mul, Nat.one_mul] at this
    rw [hcur, hlen]
    exact this
  have hpos : 0 < q.max_bytes := by
    rw [hmax]
    exact Nat.mul_pos (by omega) hfs
  have hnext : (q.internal_cursor + cfg.frameSize) % q.max_bytes =
      (j + 1) % c * cfg.frameSize := by
    rw [hcur, hmax, ← Nat.mul_mod_mul_right, Nat.add_mul, Nat.one_mul]
  unfold ByteQueue.pop
  rw [if_pos ⟨hpos, hp, hin⟩, hnext, hcur]

theorem frame_length (cfg : QueueConfig) (c : Nat) (q : ByteQueue) (j : Nat)
    (hlen : q.data.length = c * cfg.frameSize) (hj : j < c) :
    ((q.data.drop (j * cfg.frameSize)).take cfg.frameSize).length = cfg.frameSize := by
  have : (j + 1) * cfg.frameSize ≤ c * cfg.frameSize := Nat.mul_le_mul_right _ hj
  rw [Nat.add_mul, Nat.one_mul] at this
  rw [List.length_take, List.length_drop, hlen]
  omega

theorem popN_frame (cfg : QueueConfig) (c : Nat) (hfs : 0 < cfg.frameSize) :
    ∀ (k : Nat) (q : ByteQueue) (packet : List Nat) (j : Nat),
      q.max_bytes = c * cfg.frameSize → q.data.length = c * cfg.frameSize →
      q.internal_cursor = j * cfg.frameSize → j < c →
      cfg.frameSize ≤ packet.length →
      ByteQueue.popN cfg (k + 1) q packet =
        some ((q.data.drop ((j + k) % c * cfg.frameSize)).take cfg.frameSize ++
            packet.drop cfg.frameSize,
          { q with internal_cursor := (j + k + 1) % c * cfg.frameSize }) := by
  intro k
  induction k with
  | zero =>
    intro q packet j hmax hlen hcur hj hp
    rw [ByteQueue.popN, pop_frame cfg c hfs q packet j hmax hlen hcur hj hp]
    simp only [ByteQueue.popN, Nat.add_zero, Nat.mod_eq_of_lt hj]
  | succ k ih =>
    intro q packet j hmax hlen hcur hj hp
    have hc : 0 < c := by omega
    rw [ByteQueue.popN, pop_frame cfg c hfs q packet j hmax hlen hcur hj hp]
    simp only
    have hframe := frame_length cfg c q j hlen hj
    have h := ih { q with internal_cursor := (j + 1) % c * cfg.frameSize }
      ((q.data.drop (j * cfg.frameSize)).take cfg.frameSize ++ packet.drop cfg.frameSize)
      ((j + 1) % c) hmax hlen rfl (Nat.mod_lt _ hc)
      (by rw [List.length_append, hframe]; omega)
    have e1 : ((j + 1) % c + k) % c = (j + (k + 1)) % c := by
      rw [Nat.mod_add_mod]; congr 1; omega
    have e2 : ((j + 1) % c + k + 1) % c = (j + (k + 1) + 1) % c := by
      rw [Nat.add_assoc, Nat.mod_add_mod]; congr 1; omega
    rw [h, e1, e2, List.drop_left' hframe]

theorem push_cursor (cfg : QueueConfig) (q q' : ByteQueue) (bytes : List Nat)
    (h : ByteQueue.push cfg q bytes = some q') :
    q'.internal_cursor = (q.internal_cursor + cfg.frameSize) % q.max_bytes := by
  unfold ByteQueue.push at h
  split at h
  · cases h; rfl
  · cases h

theorem pop_cursor (cfg : QueueConfig) (q q' : ByteQueue) (packet out : List Nat)
    (h : ByteQueue.pop cfg q packet = some (out, q')) :
    q'.internal_cursor = (q.internal_cursor + cfg.frameSize) % q.max_bytes ∧
      q'.data = q.data := by
  unfold ByteQueue.pop at h
  split at h
  · cases h; exact ⟨rfl, rfl⟩
  · cases h

/-! ## Lemmas: the test oracle -/

/-- On equal buffers the loop of `HammingDistance` leaves the count as it is. -/
theorem HammingDistanceLoop_same : ∀ (n : Nat) (a : List Nat) (acc : Nat),
    n ≤ a.length → HammingDistanceLoop n a a acc = some acc
  | 0, _, _, _ => by simp only [HammingDistanceLoop]
  | n + 1, [], _, h => by simp at h
  | n + 1, x :: a, acc, h => by
    simp only [HammingDistanceLoop, ne_eq, not_true_eq_false, if_false]
    exact HammingDistanceLoop_same n a acc (by simpa using h)

/-! ## Lemmas: the chunking loop -/

/-- While no `int` overflows, the loop runs for exactly the remaining number
    of chunks. -/
theorem pipelineLoop_count (data_length last_packet_len : Int)
    (hdl : data_length ≤ 2147483640) :
    ∀ (fuel : Nat) (s : PipelineState),
      (data_length - s.i + 42) / 43 ≤ fuel →
      s.i = 43 * s.num → 0 ≤ s.num →
      s.full_packets ≤ 2147483647 →
      data_length - s.i + 42 ≤ 43 * (s.full_packets + 2147483648) →
      ∃ s', pipelineLoop data_length last_packet_len fuel s = some s' ∧
        s'.num = s.num + max 0 ((data_length - s.i + 42) / 43) ∧
        (s'.calls.length : Int) = s.calls.length + max 0 ((data_length - s.i + 42) / 43) ∧
        s'.i = s.i + 43 * max 0 ((data_length - s.i + 42) / 43) := by
  intro fuel
  induction fuel with
  | zero =>
    intro s h _ _ _ _
    have : ¬ s.i < data_length := by omega
    refine ⟨s, by simp only [pipelineLoop, if_neg this], ?_, ?_, ?_⟩ <;> omega
  | succ fuel ih =>
    intro s h hi hnum hfp hfl
    by_cases hlt : s.i < data_length
    · simp only [pipelineLoop, if_pos hlt]
      have w1 : wrapInt (s.i + 43) = s.i + 43 := by unfold wrapInt; omega
      have w2 : wrapInt (s.full_packets - 1) = s.full_packets - 1 := by unfold wrapInt; omega
      have w3 : wrapInt (s.num + 1) = s.num + 1 := by unfold wrapInt; omega
      rw [w1, w2, w3]
      obtain ⟨s', hs', hnum', hcalls, hexit⟩ := ih
        { i := s.i + 43
          full_packets := s.full_packets - 1
          num := s.num + 1
          calls := s.calls ++ [(s.i, if s.full_packets > 0 then 43 * 8 else last_packet_len)] }
        (by simp only; omega) (by simp only; omega) (by simp only; omega)
        (by simp only; omega) (by simp only; omega)
      refine ⟨s', hs', ?_, ?_, ?_⟩
      · simp only at hnum'; omega
      · simp only [List.length_append, List.length_singleton, Nat.cast_add, Nat.cast_one] at hcalls
        omega
      · simp only at hexit; omega
    · refine ⟨s, by simp only [pipelineLoop, if_neg hlt], ?_, ?_, ?_⟩ <;> omega

/-- At `data_length = INT_MAX` the loop is still running as long as the
    counter has not passed the wraparound. -/
theorem pipelineLoop_running (last_packet_len : Int) :
    ∀ (fuel : Nat) (s : PipelineState),
      s.i % 43 = 0 → 0 ≤ s.i → s.i ≤ 2147483640 → s.i + 43 * fuel ≤ 2147483683 →
      pipelineLoop 2147483647 last_packet_len fuel s = none := by
  intro fuel
  induction fuel with
  | zero =>
    intro s _ _ hle _
    simp only [pipelineLoop, if_pos (show s.i < 2147483647 by omega)]
  | succ fuel ih =>
    intro s hmod h0 hle hf
    simp only [pipelineLoop, if_pos (show s.i < 2147483647 by omega)]
    by_cases hlast : s.i + 43 ≤ 2147483640
    · have w1 : wrapInt (s.i + 43) = s.i + 43 := by unfold wrapInt; omega
      rw [w1]
      exact ih _ (by simp only; omega) (by simp only; omega) (by simp only; omega)
        (by simp only; omega)
    · have hi : s.i = 2147483640 := by omega
      have hfuel : fuel = 0 := by omega
      subst hfuel
      have w1 : wrapInt (s.i + 43) = -2147483613 := by unfold wrapInt; omega
      rw [w1]
      simp only [pipelineLoop]
      rw [if_pos (by decide)]

/-- Each iteration keeps `i` congruent to `43 * num` modulo `2^32`, and the
    loop ends only with `i` at or above `data_length`. -/
theorem pipelineLoop_exit (data_length last_packet_len : Int) :
    ∀ (fuel : Nat) (s s' : PipelineState),
      pipelineLoop data_length last_packet_len fuel s = some s' →
      (s.i - 43 * s.num) % 4294967296 = 0 → s.i ≤ 2147483647 →
      (s'.i - 43 * s'.num) % 4294967296 = 0 ∧ s'.i ≤ 2147483647 ∧ data_length ≤ s'.i := by
  intro fuel
  induction fuel with
  | zero =>
    intro s s' h hinv hmax
    simp only [pipelineLoop] at h
    split at h
    · cases h
    · cases h; exact ⟨hinv, hmax, by omega⟩
  | succ fuel ih =>
    intro s s' h hinv hmax
    simp only [pipelineLoop] at h
    split at h
    · exact ih _ s' h (by simp only; unfold wrapInt; omega) (by simp only; unfold wrapInt; omega)
    · cases h; exact ⟨hinv, hmax, by omega⟩

/-! ## The codec contract -/

/-- C1: for every byte buffer `D` whose length is a multiple of 3, `Encode D`
    succeeds with a buffer `E`; decoding `E` itself (zero flips) returns `D`,
    and decoding any buffer `R` obtained from `E` by flipping at most 3 bits
    inside each 24-bit codeword returns exactly `D`. -/
theorem Decode_corrects_three_flips (D : List Nat) (hlen : D.length % 3 = 0)
    (hbytes : ∀ b ∈ D, b < 256) :
    ∃ E, Encode D = some E ∧ Decode E = some D ∧
      ∀ R, flipsWithin 3 E R = true → Decode R = some D := by
  obtain ⟨E, hE, _, hclean, hflips⟩ := Decode_Encode_corrupted D hlen hbytes
  exact ⟨E, hE, hclean, hflips⟩

/-- The bytes `abc` encode to `[97, 105, 157, 38, 53, 233]`; with three bits
    flipped in each of the two codewords the buffer still decodes to `abc`. -/
theorem Decode_corrects_three_flips_witness :
    [97, 98, 99].length % 3 = 0 ∧ (∀ b ∈ [97, 98, 99], b < 256) ∧
    Encode [97, 98, 99] = some [97, 105, 157, 38, 53, 233] ∧
    flipsWithin 3 [97, 105, 157, 38, 53, 233] [224, 105, 141, 39, 117, 235] = true ∧
    Decode [224, 105, 141, 39, 117, 235] = some [97, 98, 99] := by
  have hE : Encode [97, 98, 99] = some [97, 105, 157, 38, 53, 233] := by decide
  have hR : flipsWithin 3 [97, 105, 157, 38, 53, 233] [224, 105, 141, 39, 117, 235] = true := by
    decide
  obtain ⟨E, hE', _, h⟩ := Decode_corrects_three_flips [97, 98, 99] (by decide) (by decide)
  have hEq : E = [97, 105, 157, 38, 53, 233] := Option.some.inj (hE'.symm.trans hE)
  subst hEq
  exact ⟨by decide, by decide, hE, hR, h _ hR⟩

/-! ## The queue -/

/-- C2: on a freshly constructed queue (internal cursor 0) whose capacity is
    `c ≥ 1` frames, `push(F)` succeeds and moves the cursor by one frame size
    modulo the capacity, and `c` calls to `pop` after it all succeed, each
    moving the same cursor in the same way, and leave the frame of `F` (its
    first `frameSize` bytes) in the caller buffer filled by the last `pop`. -/
theorem push_then_pops_returns_frame (cfg : QueueConfig) (c : Nat) (mem : Nat → Nat)
    (dataAddr mem_fd : Nat) (F packet : List Nat)
    (hc : 1 ≤ c) (hfs : 0 < cfg.frameSize)
    (hF : cfg.frameSize ≤ F.length) (hp : cfg.frameSize ≤ packet.length) :
    (∃ q1 q2,
      (ByteQueue.create (c * cfg.frameSize) mem dataAddr mem_fd).internal_cursor = 0 ∧
      ByteQueue.push cfg (ByteQueue.create (c * cfg.frameSize) mem dataAddr mem_fd) F = some q1 ∧
      q1.internal_cursor = cfg.frameSize % (c * cfg.frameSize) ∧
      ByteQueue.popN cfg c q1 packet =
        some (F.take cfg.frameSize ++ packet.drop cfg.frameSize, q2) ∧
      q2.internal_cursor = cfg.frameSize % (c * cfg.frameSize)) ∧
    (∀ q q' bytes, ByteQueue.push cfg q bytes = some q' →
      q'.internal_cursor = (q.internal_cursor + cfg.frameSize) % q.max_bytes) ∧
    (∀ q q' buffer out, ByteQueue.pop cfg q buffer = some (out, q') →
      q'.internal_cursor = (q.internal_cursor + cfg.frameSize) % q.max_bytes ∧
        q'.data = q.data) := by
  refine ⟨?_, fun q q' bytes h => push_cursor cfg q q' bytes h,
    fun q q' buffer out h => pop_cursor cfg q q' buffer out h⟩
  have hpos : 0 < c * cfg.frameSize := Nat.mul_pos (by omega) hfs
  have hle : cfg.frameSize ≤ c * cfg.frameSize := Nat.le_mul_of_pos_left _ (by omega)
  have hcur : cfg.frameSize % (c * cfg.frameSize) = 1 % c * cfg.frameSize := by
    rw [← Nat.mul_mod_mul_right, Nat.one_mul]
  have hpush : ByteQueue.push cfg (ByteQueue.create (c * cfg.frameSize) mem dataAddr mem_fd) F =
      some { ByteQueue.create (c * cfg.frameSize) mem dataAddr mem_fd with
        data := F.take cfg.frameSize ++
          ((List.range (c * cfg.frameSize)).map fun i => mem (2 + i)).drop cfg.frameSize
        internal_cursor := cfg.frameSize % (c * cfg.frameSize)
        length := cfg.pushLength (mem 0) } := by
    unfold ByteQueue.push
    rw [if_pos ⟨hpos, hF, by simp [ByteQueue.create]; exact hle⟩]
    simp only [ByteQueue.create, List.take_zero, List.nil_append, Nat.zero_add]
  have htake : (F.take cfg.frameSize).length = cfg.frameSize := by
    rw [List.length_take]; omega
  obtain ⟨k, rfl⟩ : ∃ k, c = k + 1 := ⟨c - 1, by omega⟩
  have hpop := popN_frame cfg (k + 1) hfs k
    { ByteQueue.create ((k + 1) * cfg.frameSize) mem dataAddr mem_fd with
        data := F.take cfg.frameSize ++
          ((List.range ((k + 1) * cfg.frameSize)).map fun i => mem (2 + i)).drop cfg.frameSize
        internal_cursor := cfg.frameSize % ((k + 1) * cfg.frameSize)
        length := cfg.pushLength (mem 0) }
    packet (1 % (k + 1)) rfl
    (by simp only [List.length_append, htake, List.length_drop, List.length_map,
          List.length_range]; omega)
    hcur (Nat.mod_lt _ (by omega)) hp
  have h0 : (1 % (k + 1) + k) % (k + 1) = 0 := by
    rw [Nat.mod_add_mod, Nat.add_comm, Nat.mod_self]
  have h1 : (1 % (k + 1) + k + 1) % (k + 1) = 1 % (k + 1) := by
    rw [Nat.add_assoc, Nat.add_mod_right, Nat.mod_mod]
  simp only [h0, h1, Nat.zero_mul, List.drop_zero] at hpop
  rw [List.take_left' htake] at hpop
  exact ⟨_, _, rfl, hpush, rfl, hpop, hcur.symm⟩

/-- The queue test with 88-byte frames: capacity `88 * 2`, one push of an
    88-byte frame, two pops into an 88-byte buffer. -/
theorem push_then_pops_returns_frame_witness :
    1 ≤ 2 ∧ 0 < 88 ∧ 88 ≤ (List.range 88).length ∧ 88 ≤ (List.replicate 88 0).length ∧
    ∃ q1 q2,
      (ByteQueue.create (2 * 88) (fun _ => 0) 0 0).internal_cursor = 0 ∧
      ByteQueue.push ⟨88, id⟩ (ByteQueue.create (2 * 88) (fun _ => 0) 0 0) (List.range 88) =
        some q1 ∧
      q1.internal_cursor = 88 % (2 * 88) ∧
      ByteQueue.popN ⟨88, id⟩ 2 q1 (List.replicate 88 0) =
        some ((List.range 88).take 88 ++ (List.replicate 88 0).drop 88, q2) ∧
      q2.internal_cursor = 88 % (2 * 88) :=
  ⟨by decide, by decide, by decide, by decide,
    (push_then_pops_returns_frame ⟨88, id⟩ 2 (fun _ => 0) 0 0 (List.range 88)
      (List.replicate 88 0) (by decide) (by decide) (by decide) (by decide)).1⟩

/-- C3: the method `pruCursor()` subtracts the bias 5: every raw value
    `r ≥ 5` of the hardware cursor field gives `r - 5` (so 5 gives 0), and
    every documented hardware value `5 + 92*k` gives `92*k`. -/
theorem pruCursor_subtracts_bias (q : ByteQueue)
    (h5 : 5 ≤ q.pru_cursor) (hlt : q.pru_cursor < UINT32) :
    q.pruCursor.1 = q.pru_cursor - 5 ∧
    (q.pru_cursor = 5 → q.pruCursor.1 = 0) ∧
    (∀ k : Nat, q.pru_cursor = 5 + 92 * k → q.pruCursor.1 = 92 * k) := by
  have main : q.pruCursor.1 = q.pru_cursor - 5 := by
    unfold ByteQueue.pruCursor UINT32 at *
    split
    · simp only []; omega
    · simp only []; omega
  refine ⟨main, ?_, ?_⟩
  · intro h; rw [main, h]
  · intro k h; rw [main, h]; omega

/-- The hardware value 97 is translated to the data-region offset 92. -/
theorem pruCursor_subtracts_bias_witness :
    5 ≤ 97 ∧ 97 < UINT32 ∧
    (ByteQueue.pruCursor
      { length := 0, pru_cursor := 97, data := [], dataAddr := 0, max_bytes := 0,
        internal_cursor := 0, mem_fd := 0 }).1 = 92 * 1 :=
  ⟨by decide, by decide,
    (pruCursor_subtracts_bias
      { length := 0, pru_cursor := 97, data := [], dataAddr := 0, max_bytes := 0,
        internal_cursor := 0, mem_fd := 0 } (by decide) (by decide)).2.2 1 rfl⟩

/-- C4: the method `setLength(n)` stores `n` reduced modulo `2^32` in the
    length field, so that `getLength()` right after it returns that value, and
    leaves every other part of the state as it was; `getLength`, `pruCursor`,
    `dataLocation` and `peek` leave the whole state as it was.  `peek` returns
    the data base plus the internal cursor, two `peek`s in a row return the
    same location, and none of the five writes the hardware cursor field. -/
theorem accessors_frame (q : ByteQueue) (n : Int) :
    (q.setLength n).length = (n % 4294967296).toNat ∧
    (q.setLength n).getLength.1 = (n % 4294967296).toNat ∧
    ((q.setLength n).pru_cursor = q.pru_cursor ∧ (q.setLength n).data = q.data ∧
      (q.setLength n).dataAddr = q.dataAddr ∧ (q.setLength n).max_bytes = q.max_bytes ∧
      (q.setLength n).internal_cursor = q.internal_cursor ∧
      (q.setLength n).mem_fd = q.mem_fd) ∧
    (q.getLength.1 = q.length ∧ q.getLength.2 = q) ∧
    q.pruCursor.2 = q ∧
    (q.dataLocation.1 = q.dataAddr ∧ q.dataLocation.2 = q) ∧
    (q.peek.1 = q.dataAddr + q.internal_cursor ∧ q.peek.2 = q) ∧
    q.peek.2.peek.1 = q.peek.1 ∧
    ((q.setLength n).pru_cursor = q.pru_cursor ∧ q.getLength.2.pru_cursor = q.pru_cursor ∧
      q.pruCursor.2.pru_cursor = q.pru_cursor ∧ q.dataLocation.2.pru_cursor = q.pru_cursor ∧
      q.peek.2.pru_cursor = q.pru_cursor) := by
  have hp : q.pruCursor.2 = q := by
    unfold ByteQueue.pruCursor
    split <;> rfl
  refine ⟨rfl, rfl, ⟨rfl, rfl, rfl, rfl, rfl, rfl⟩, ⟨rfl, rfl⟩, hp, ⟨rfl, rfl⟩, ⟨rfl, rfl⟩, rfl,
    ⟨rfl, rfl, ?_, rfl, rfl⟩⟩
  rw [hp]

/-- C9 (amended): the method `pruCursor()` returns a 32-bit value for every
    raw value `r` and equals the branch-free `(r - 5) mod 2^32`, so the
    `r == 5` case never changes the result; for `r < 5` the result is
    `2^32 - 5 + r`, at least `2^32 - 5`, and therefore not an offset inside
    the data region of any queue whose capacity is at most `2^32 - 5` bytes. -/
theorem pruCursor_branch_free (q : ByteQueue) :
    (q.pruCursor.1 : Int) = ((q.pru_cursor : Int) - 5) % 4294967296 ∧
    q.pruCursor.1 = (q.pru_cursor + UINT32 - 5) % UINT32 ∧
    q.pruCursor.1 < UINT32 ∧
    (q.pru_cursor < 5 →
      q.pruCursor.1 = UINT32 - 5 + q.pru_cursor ∧
      UINT32 - 5 ≤ q.pruCursor.1 ∧
      (q.max_bytes ≤ UINT32 - 5 → ¬ q.pruCursor.1 < q.max_bytes)) := by
  have hval : q.pruCursor.1 = (q.pru_cursor + 4294967296 - 5) % 4294967296 := by
    unfold ByteQueue.pruCursor UINT32
    split
    · simp only []; omega
    · rfl
  unfold UINT32
  rw [hval]
  refine ⟨by omega, rfl, by omega, ?_⟩
  intro h
  refine ⟨by omega, by omega, fun _ => by omega⟩

/-- A hardware cursor field still holding 0, on the queue of the queue test. -/
theorem pruCursor_branch_free_witness :
    (ByteQueue.create (88 * 2) (fun _ => 0) 0 0).pru_cursor < 5 ∧
    (ByteQueue.create (88 * 2) (fun _ => 0) 0 0).max_bytes ≤ UINT32 - 5 ∧
    (ByteQueue.create (88 * 2) (fun _ => 0) 0 0).pruCursor.1 = UINT32 - 5 + 0 ∧
    ¬ (ByteQueue.create (88 * 2) (fun _ => 0) 0 0).pruCursor.1 < 88 * 2 :=
  ⟨by decide, by decide,
    ((pruCursor_branch_free (ByteQueue.create (88 * 2) (fun _ => 0) 0 0)).2.2.2 (by decide)).1,
    ((pruCursor_branch_free (ByteQueue.create (88 * 2) (fun _ => 0) 0 0)).2.2.2
      (by decide)).2.2 (by decide)⟩

/-- C9 as stated fails on a queue of capacity 4294967295 whose hardware cursor
    field holds 0: `pruCursor()` returns 4294967291, which is below the
    capacity and so an offset inside the data region. -/
theorem pruCursor_inside_region :
    (ByteQueue.create 4294967295 (fun _ => 0) 0 0).pru_cursor < 5 ∧
    (ByteQueue.create 4294967295 (fun _ => 0) 0 0).max_bytes < UINT32 ∧
    (ByteQueue.create 4294967295 (fun _ => 0) 0 0).pruCursor.1 = 4294967291 ∧
    (ByteQueue.create 4294967295 (fun _ => 0) 0 0).pruCursor.1 <
      (ByteQueue.create 4294967295 (fun _ => 0) 0 0).max_bytes := by
  refine ⟨by decide, by decide, by decide, by decide⟩

/-! ## The data pipeline test -/

/-- C5 (amended): for every `data_length` with `1 ≤ data_length ≤ 2147483640`
    the chunking loop of `TestDataPipeline` ends (any fuel of at least
    `ceil(data_length / 43)` suffices) after exactly `ceil(data_length / 43)`
    iterations, each one packetize, Encode and push: `num` is the least `n`
    with `data_length ≤ 43 * n`, the counter `i` ends at `43 * num`, and `num`
    is 24 for `data_length = 1000`. -/
theorem TestDataPipeline_frame_count (data_length : Int) (h : 1 ≤ data_length)
    (hmax : data_length ≤ 2147483640)
    (fuel : Nat) (hfuel : (data_length + 42) / 43 ≤ fuel) :
    ∃ s, TestDataPipeline data_length fuel = some s ∧
      s.num = (data_length + 42) / 43 ∧
      (s.calls.length : Int) = s.num ∧
      (43 * (s.num - 1) < data_length ∧ data_length ≤ 43 * s.num) ∧
      s.i = 43 * s.num ∧
      (data_length = 1000 → s.num = 24) := by
  have hdiv : Int.tdiv data_length 43 = data_length / 43 :=
    Int.tdiv_eq_ediv (by omega) (by decide)
  obtain ⟨s, hs, hnum, hcalls, hi⟩ :=
    pipelineLoop_count data_length (Int.tmod data_length 43) hmax fuel
      { i := 0, full_packets := Int.tdiv data_length 43, num := 0, calls := [] }
      (by simp only; omega) (by simp only; omega) (by simp only; omega)
      (by simp only; omega) (by simp only; omega)
  simp only [List.length_nil, Nat.cast_zero] at hnum hcalls hi
  refine ⟨s, hs, by omega, by omega, by omega, by omega, ?_⟩
  intro h1000
  omega

/-- The test itself: 1000 bytes give 24 iterations. -/
theorem TestDataPipeline_frame_count_witness :
    (1 : Int) ≤ 1000 ∧ (1000 : Int) ≤ 2147483640 ∧ ((1000 : Int) + 42) / 43 ≤ (24 : Nat) ∧
    ∃ s, TestDataPipeline 1000 24 = some s ∧
      s.num = (1000 + 42) / 43 ∧
      (s.calls.length : Int) = s.num ∧
      (43 * (s.num - 1) < 1000 ∧ 1000 ≤ 43 * s.num) ∧
      s.i = 43 * s.num ∧
      ((1000 : Int) = 1000 → s.num = 24) :=
  ⟨by decide, by decide, by decide,
    TestDataPipeline_frame_count 1000 (by decide) (by decide) 24 (by decide)⟩

/-- C5 as stated fails at `data_length = 2147483647`, the largest `int`:
    after `ceil(2147483647 / 43) = 49941481` iterations the counter has gone
    from 2147483640 past the end of the `int` range to -2147483613, the loop
    condition still holds and the loop runs on; whenever it ends, `num` is not
    49941481. -/
theorem TestDataPipeline_int_overflow :
    TestDataPipeline 2147483647 49941481 = none ∧
    ¬ ∃ (fuel : Nat) (s : PipelineState),
        TestDataPipeline 2147483647 fuel = some s ∧ s.num = (2147483647 + 42) / 43 := by
  constructor
  · exact pipelineLoop_running _ 49941481 _ (by decide) (by decide) (by decide) (by decide)
  · rintro ⟨fuel, s, hs, hnum⟩
    obtain ⟨hinv, hmax, hge⟩ := pipelineLoop_exit _ _ fuel _ s hs (by decide) (by decide)
    rw [hnum] at hinv
    omega

/-- C6: evaluation of the test: the 1000-byte stream makes 24 pushes, but the
    queue of `88 * 23 = 2024` bytes holds fewer than 24 frames of 87 bytes
    (2088) and fewer than 24 frames of 88 bytes (2112).  With 87-byte frames
    the 24th push runs past the end of the data region; with 88-byte frames it
    wraps to offset 0 and overwrites the first frame. -/
theorem pipeline_queue_too_small :
    (TestDataPipeline 1000 24).map (fun s => s.num) = some 24 ∧
    pipelineQueueBytes = 2024 ∧
    pipelineQueueBytes < 24 * 87 ∧ pipelineQueueBytes < 24 * 88 ∧
    ByteQueue.pushAll ⟨87, id⟩ (ByteQueue.create pipelineQueueBytes (fun _ => 0) 0 0)
      (pipelineFrames 87) = none ∧
    (ByteQueue.pushAll ⟨88, id⟩ (ByteQueue.create pipelineQueueBytes (fun _ => 0) 0 0)
      ((pipelineFrames 88).take 23)).map (fun q => (q.internal_cursor, q.data.take 88)) =
      some (0, List.replicate 88 1) ∧
    (ByteQueue.pushAll ⟨88, id⟩ (ByteQueue.create pipelineQueueBytes (fun _ => 0) 0 0)
      (pipelineFrames 88)).map (fun q => q.data.take 88) = some (List.replicate 88 24) := by
  refine ⟨by decide!, by decide, by decide, by decide, ?_, ?_, ?_⟩ <;> decide!

/-- C7: evaluation of the test: the call in `TestFEC` meets the contract of
    `Encode`; the call in `TestDataPipeline` passes a length divisible by 3 but
    an output buffer of 87 bytes, while `Encode` writes `2 * 45 = 90` bytes
    for a 45-byte packet. -/
theorem TestDataPipeline_Encode_overruns :
    TestFEC_Encode.meetsContract ∧
    TestDataPipeline_Encode.inputLength % 3 = 0 ∧
    ¬ TestDataPipeline_Encode.meetsContract ∧
    (Encode (List.replicate TestDataPipeline_Encode.inputLength 97)).map List.length =
      some 90 ∧
    TestDataPipeline_Encode.outputBytes < 90 := by
  refine ⟨by decide, by decide, by decide, ?_, by decide⟩
  decide!

/-- C8: evaluation of the oracle: `HammingDistance` returns 0 on the one-byte
    buffers `0x61` and `0x9E`, which differ (in all 8 bits), because it counts
    the equal bits of the differing bytes. -/
theorem HammingDistance_zero_on_unequal :
    HammingDistance [97] [158] 1 = some 0 ∧ [97].take 1 ≠ [158].take 1 ∧
    HammingDistance [97] [96] 1 = some 7 := by
  decide

/-- C10: evaluation of the test at `data_length = 1000`: the 23 full chunks
    are packetized with `bitlen = 344`, the final chunk of 11 bytes at offset
    989 with `bitlen = 11`, not `8 * 11 = 88`. -/
theorem TestDataPipeline_last_bitlen :
    (TestDataPipeline 1000 24).map (fun s => s.calls.map Prod.snd) =
      some (List.replicate 23 344 ++ [11]) ∧
    (TestDataPipeline 1000 24).map (fun s => s.calls.getLast?) = some (some (989, 11)) ∧
    8 * Int.tmod 1000 43 = 88 := by
  decide

end VLC
